import Mathlib

/-!
Shallow embedding of `generate_mem_diagram.py` (memory-map diagram generator).

The Python source is Python 2: `sorted(..., cmp=...)`, `None` comparisons
(`None < x` is `True`, `x < None` is `False` for any integer `x`,
`None == None` is `True`) and `None` arithmetic raising `TypeError` are
modelled explicitly below (`pyLtO`, `pyLeO`, `pySubO`).  Exceptions are
modelled by `Except MErr`.  Machine integers are `Int` (Python ints are
unbounded).  Python floats are idealised as `ℚ` (exact arithmetic).

Deliberate abstractions, noted where they occur:
* random label generation (`random.choice` for author-omitted labels) is
  modelled by keeping the empty label: no claim depends on label text;
* `sorted(cmp=...)` is modelled by insertion sort: the comparator raises on
  every tie (equal keys are reported as overlaps), so any comparison sort
  produces the same ordering, and any correct comparison sort compares every
  pair that ends up adjacent;
* the LaTeX text assembled by `populate_template` / `generate_node_latex`
  is out of scope (the spec treats the emitter as an external collaborator);
  only their numeric results, error behaviour and the `node.kind` mutation
  are kept.
-/

/-- A memory region: `MemoryMapNode.__init__` fields (lines 277-293). -/
structure MNode where
  lo : Option Int
  hi : Option Int
  kind : String
  label : String
  node_id : String
  number : Int
  comment : String
  grow : Bool
deriving DecidableEq, Repr

/-- Exceptions raised by the script, tagged by raise site. -/
inductive MErr where
  | badRange (n : MNode)
  | needHiTop (n : MNode)
  | needLoTop (n : MNode)
  | overlap (a b : MNode)
  | negStart (n : MNode)
  | negEnd (n : MNode)
  | endNotGreater (n : MNode)
  | typeErr
  | zeroDiv
  | indexErr
  | valueErr
  | lowestUndef
  | highestUndef
deriving DecidableEq, Repr

instance {ε α : Type} [DecidableEq ε] [DecidableEq α] : DecidableEq (Except ε α) := fun x y =>
  match x, y with
  | .error a, .error b =>
    if h : a = b then .isTrue (by rw [h]) else .isFalse (fun hc => by cases hc; exact h rfl)
  | .ok a, .ok b =>
    if h : a = b then .isTrue (by rw [h]) else .isFalse (fun hc => by cases hc; exact h rfl)
  | .error _, .ok _ => .isFalse (fun hc => by cases hc)
  | .ok _, .error _ => .isFalse (fun hc => by cases hc)

/-- Python 2 `<` on optional ints: `None` sorts below every int. -/
def pyLtO : Option Int → Option Int → Bool
  | none, none => false
  | none, some _ => true
  | some _, none => false
  | some x, some y => x < y

/-- Python 2 `<=` on optional ints. -/
def pyLeO : Option Int → Option Int → Bool
  | none, _ => true
  | some _, none => false
  | some x, some y => x ≤ y

/-- Python 2 `>` on optional ints. -/
def pyGtO (a b : Option Int) : Bool := pyLtO b a

/-- Python 2 `>=` on optional ints. -/
def pyGeO (a b : Option Int) : Bool := pyLeO b a

/-- Python subtraction on optional ints: `None` raises `TypeError`. -/
def pySubO : Option Int → Option Int → Except MErr Int
  | some x, some y => .ok (x - y)
  | _, _ => .error .typeErr

/-- Character-list prefix test (structural, so that proofs can evaluate it). -/
def charListPrefix : List Char → List Char → Bool
  | [], _ => true
  | _ :: _, [] => false
  | c :: cs, d :: ds => c = d && charListPrefix cs ds

/-- Python `s.startswith(pre)`. -/
def pyStartsWith (s pre : String) : Bool := charListPrefix pre.data s.data

/-- Python `s[n:]` (character-based slicing, as in the source). -/
def pyDrop (s : String) (n : Nat) : String := String.mk (s.data.drop n)

/-- Python `s.strip()`: drop whitespace from both ends. -/
def pyStrip (s : String) : String :=
  String.mk ((((s.data.dropWhile Char.isWhitespace).reverse.dropWhile
      Char.isWhitespace).reverse))

/-- `re.sub("\.", "_", label)`: replace every dot by an underscore. -/
def replaceDots (s : String) : String :=
  String.mk (s.data.map (fun c => if c = '.' then '_' else c))

/-- Python `max(a, b)` on numbers (agrees with `Max.max` on `ℚ`). -/
def pyMax (a b : ℚ) : ℚ := if b ≤ a then a else b

/-- `x < 0` for an optional int that is known to be present (`x is not None and x < 0`). -/
def optNeg : Option Int → Bool
  | some x => x < 0
  | none => false

/-- `lo >= hi` when both are present (`lo is not None and hi is not None and lo >= hi`). -/
def optGe : Option Int → Option Int → Bool
  | some x, some y => x ≥ y
  | _, _ => false

/-- `MemoryMapNode.__init__` (lines 277-293).  Sets `grow` from the kind
prefix; note the constructor does NOT strip the prefix from `kind`.
Random label generation for an omitted label is abstracted: the label is
kept empty (no claim depends on label text). -/
def mkMemoryMapNode (lo hi : Option Int) (kind label comment : String)
    (number : Int) : MNode :=
  { lo := lo, hi := hi, kind := kind,
    label := label,
    node_id := replaceDots label,
    number := number,
    comment := "\\vphantom\x7b\\textit\x7b(\x7d\x7d" ++ comment ++
               "\\vphantom\x7b\\textit\x7b)\x7d\x7d",
    grow := pyStartsWith kind "grow down " || pyStartsWith kind "grow up " }

/-- `BlankRegionNode.__init__` (lines 410-413): a synthetic gap-filling
region of kind `rempty`.  (The `uselabels` flag it also sets is read
nowhere else in the script and is dropped.) -/
def BlankRegionNode (lo hi : Option Int) : MNode :=
  mkMemoryMapNode lo hi "rempty" "" "" (-1)

/-- `MemoryMapNode.check_range` (lines 312-324). -/
def check_range (n : MNode) (reverse : Bool) : Except MErr Unit :=
  match n.lo, n.hi with
  | some l, some h => if h > l then .ok () else .error (.badRange n)
  | _, _ =>
    if reverse then
      if n.hi = none then .error (.needHiTop n) else .ok ()
    else
      if n.lo = none then .error (.needLoTop n) else .ok ()

/-- `MemoryMapNode.check_range_overlap` (lines 326-350). -/
def check_range_overlap (a b : MNode) (reverse : Bool) : Except MErr Unit := do
  check_range a reverse
  check_range b reverse
  if reverse = false then
    if a.lo == b.lo then .error (.overlap a b)
    else if pyLtO a.lo b.lo then
      match a.hi with
      | some ah => if pyLeO (some ah) b.lo then .ok () else .error (.overlap a b)
      | none => .ok ()
    else
      match b.hi with
      | some bh => if pyLeO (some bh) a.lo then .ok () else .error (.overlap a b)
      | none => .ok ()
  else
    if a.hi == b.hi then .error (.overlap a b)
    else if pyLtO a.hi b.hi then
      match b.lo with
      | some bl => if pyGeO (some bl) a.hi then .ok () else .error (.overlap a b)
      | none => .ok ()
    else
      match a.lo with
      | some al => if pyGeO (some al) b.hi then .ok () else .error (.overlap a b)
      | none => .ok ()

/-- `MemoryMapNode.compareascend` (lines 352-354). -/
def compareascend (a b : MNode) : Except MErr Int := do
  check_range_overlap a b false
  pySubO a.lo b.lo

/-- `MemoryMapNode.comparedescend` (lines 356-358). -/
def comparedescend (a b : MNode) : Except MErr Int := do
  check_range_overlap a b true
  pySubO b.hi a.hi

/-- `MemoryMapNode.check_node` (lines 384-400). -/
def check_node (reverse : Bool) (n : MNode) : Except MErr Unit :=
  if reverse = true ∧ n.hi = none then .error (.needHiTop n)
  else if reverse = false ∧ n.lo = none then .error (.needLoTop n)
  else if optNeg n.lo then .error (.negStart n)
  else if optNeg n.hi then .error (.negEnd n)
  else if optGe n.lo n.hi then .error (.endNotGreater n)
  else .ok ()

/-- Insert one element into an already comparator-sorted list, propagating
comparator exceptions.  Models one step of Python 2 `sorted(cmp=...)`:
since the comparators raise on every tie, any comparison sort orders the
survivors identically. -/
def insertCmp (cmp : MNode → MNode → Except MErr Int) :
    MNode → List MNode → Except MErr (List MNode)
  | x, [] => .ok [x]
  | x, y :: ys => do
    let c ← cmp x y
    if c < 0 then .ok (x :: y :: ys)
    else do
      let r ← insertCmp cmp x ys
      .ok (y :: r)

/-- Fold of `insertCmp` over the input. -/
def sortFold (cmp : MNode → MNode → Except MErr Int) :
    List MNode → List MNode → Except MErr (List MNode)
  | [], acc => .ok acc
  | x :: rest, acc => do
    let acc1 ← insertCmp cmp x acc
    sortFold cmp rest acc1

/-- `sorted(nodes, cmp=...)` (lines 476-478 and 496-499). -/
def sortCmp (cmp : MNode → MNode → Except MErr Int) (l : List MNode) :
    Except MErr (List MNode) :=
  sortFold cmp l []

/-- The ascending gap scan of `sort_and_check_nodes` (lines 485-493, `not
reverse` branch): walk adjacent pairs of the sorted list and collect the
blank regions to append.  `last.hi and (n.lo > (last.hi+1))` keeps Python
truthiness: a `None` or zero `last.hi` skips the pair. -/
def gapScanAsc : List MNode → List MNode
  | a :: b :: rest =>
    (match a.hi with
     | some h => if h ≠ 0 ∧ pyGtO b.lo (some (h + 1)) then [BlankRegionNode a.hi b.lo] else []
     | none => []) ++ gapScanAsc (b :: rest)
  | _ => []

/-- The descending gap scan (lines 485-493, `reverse` branch):
`last.lo and (n.hi < (last.lo-1))` appends `BlankRegionNode(n.hi, last.lo)`. -/
def gapScanDesc : List MNode → List MNode
  | a :: b :: rest =>
    (match a.lo with
     | some l => if l ≠ 0 ∧ pyLtO b.hi (some (l - 1)) then [BlankRegionNode b.hi a.lo] else []
     | none => []) ++ gapScanDesc (b :: rest)
  | _ => []

/-- The ascending branch of one `fill_gaps` step (lines 506-508): `if
last.hi is None: last.hi = n.lo - 1` (TypeError when `n.lo` is `None`). -/
def fillHiAsc (last n : MNode) : Except MErr MNode :=
  if last.hi = none then
    match n.lo with
    | some l => .ok { last with hi := some (l - 1) }
    | none => .error MErr.typeErr
  else .ok last

/-- The descending branch of one `fill_gaps` step (lines 509-511): `if
n.lo is None: n.lo = last.hi - 1` — note it assigns the SECOND region of
the pair from the FIRST region's `hi`. -/
def fillLoDesc (last n : MNode) : Except MErr MNode :=
  if n.lo = none then
    match last.hi with
    | some h => .ok { n with lo := some (h - 1) }
    | none => .error MErr.typeErr
  else .ok n

/-- The pairwise walk of `MemoryMapParser.fill_gaps` (lines 502-512),
carrying the Python `last` variable.  In the descending branch the mutated
`n` is carried into the next pair, exactly as the in-place Python walk
does. -/
def fill_walk (reverse : Bool) (last : MNode) : List MNode → Except MErr (List MNode)
  | [] => .ok [last]
  | n :: rest =>
    if reverse = false then do
      let last1 ← fillHiAsc last n
      let r ← fill_walk reverse n rest
      .ok (last1 :: r)
    else do
      let n1 ← fillLoDesc last n
      let r ← fill_walk reverse n1 rest
      .ok (last :: r)

/-- `MemoryMapParser.fill_gaps` (lines 502-512). -/
def fill_gaps_walk (reverse : Bool) : List MNode → Except MErr (List MNode)
  | [] => .ok []
  | n :: rest => fill_walk reverse n rest

/-- `MemoryMapParser.sort_and_check_nodes` (lines 474-500) followed by the
`fill_gaps` call it ends with: sort with the raising comparator, run
`check_node` on every node, append the gap-filling blanks, re-sort, then
fill missing endpoints. -/
def sort_and_check_nodes (reverse : Bool) (nodes0 : List MNode) :
    Except MErr (List MNode) := do
  let nodes ← if reverse = false then sortCmp compareascend nodes0
              else sortCmp comparedescend nodes0
  List.forM nodes (check_node reverse)
  let nodes1 := nodes ++ (if reverse = false then gapScanAsc nodes else gapScanDesc nodes)
  let nodes2 ← if reverse = false then sortCmp compareascend nodes1
               else sortCmp comparedescend nodes1
  fill_gaps_walk reverse nodes2

/-- `MemoryMapNodeTemplate.minheight` (line 176). -/
def minheight : ℚ := 1.3

/-- `MemoryMapNodeTemplate.calculate_height` (lines 178-187).  In fixed
mode the endpoints are never read (Python returns before touching them);
otherwise `None` endpoints raise `TypeError` and a zero `memrange` raises
`ZeroDivisionError`. -/
def calculate_height (node : MNode) (memrange maxheight : ℚ)
    (fixed_height : Bool) (additional : ℚ) : Except MErr ℚ :=
  if fixed_height then .ok (minheight + 0.2)
  else
    match node.hi, node.lo with
    | some h, some l =>
      if memrange = 0 then .error .zeroDiv
      else .ok (pyMax minheight ((additional + (((h : ℚ) - (l : ℚ)) / memrange) * maxheight) * 0.5))
    | _, _ => .error .typeErr

/-- `MemoryMapNodeTemplate.populate_template` (lines 189-273), restricted
to its observable effects on the model: the growth bonus (`additional = 4`
iff `node.grow`), the computed height, and the mutation of `node.kind`
(prefix stripped, then `kind` overwritten with the assembled `typeattrs`
string).  The LaTeX text it also assembles is emitter output and out of
scope; parameters used only for that text are dropped. -/
def populate_template (node : MNode) (reverse : Bool) (memrange maxheight : ℚ)
    (fixed_height : Bool) : Except MErr (MNode × ℚ) := do
  let additional : ℚ := if node.grow then 4 else 0
  let mh ← calculate_height node memrange maxheight fixed_height additional
  let t1k1 : String × String :=
    if pyStartsWith node.kind "grow down " then
      (" " ++ "very thick, " ++ (if reverse = false then "grow up," else "grow down,"),
       pyStrip (pyDrop node.kind 9))
    else (" ", node.kind)
  let t2 : String :=
    if pyStartsWith t1k1.2 "grow up " then
      t1k1.1 ++ (if reverse = false then "grow down," else "grow up,")
    else t1k1.1 ++ t1k1.2
  .ok ({ node with kind := t2 }, mh)

/-- `MemoryMapGenerator.generate_node_latex` (lines 574-607), keeping the
guards, the address-span computation (`None` arithmetic raises), and the
per-node `populate_template` results; the concatenated LaTeX text is out
of scope. -/
def generate_node_latex (reverse : Bool) (nodes : List MNode)
    (maxheight : ℚ) (fixed : Bool) : Except MErr (List (MNode × ℚ)) :=
  match nodes with
  | [] => .ok []
  | first :: _ =>
    if reverse = false then
      if first.lo = none then .error .lowestUndef
      else do
        let mr ← pySubO (nodes.getLastD first).hi first.lo
        nodes.mapM (fun n => populate_template n reverse (mr : ℚ) maxheight fixed)
    else
      if (nodes.getLastD first).hi = none then .error .highestUndef
      else do
        let mr ← pySubO first.hi (nodes.getLastD first).lo
        nodes.mapM (fun n => populate_template n reverse (mr : ℚ) maxheight fixed)

/-! ## CSV record decoding (`MemoryMapCSVParser.parse` and `from_csv`, lines 402-547) -/

/-- Python `row[i]`: out of range raises `IndexError`. -/
def pyIdx (row : List String) (i : Nat) : Except MErr String :=
  match row.get? i with
  | some s => .ok s
  | none => .error .indexErr

/-- Python `sep.join(parts)`. -/
def pyJoin (sep : String) : List String → String
  | [] => ""
  | [a] => a
  | a :: b :: rest => a ++ sep ++ pyJoin sep (b :: rest)

/-- Hexadecimal digit value. -/
def hexDigit (c : Char) : Option Nat :=
  if '0' ≤ c ∧ c ≤ '9' then some (c.toNat - '0'.toNat)
  else if 'a' ≤ c ∧ c ≤ 'f' then some (c.toNat - 'a'.toNat + 10)
  else if 'A' ≤ c ∧ c ≤ 'F' then some (c.toNat - 'A'.toNat + 10)
  else none

/-- Decimal digit value. -/
def decDigit (c : Char) : Option Nat :=
  if '0' ≤ c ∧ c ≤ '9' then some (c.toNat - '0'.toNat) else none

/-- Accumulate a digit string; `none` on an empty or malformed string. -/
def digitsToNat (digit : Char → Option Nat) (base : Nat) (l : List Char) : Option Nat :=
  l.foldl (fun acc c =>
    match acc, digit c with
    | some a, some d => some (a * base + d)
    | _, _ => none) (if l = [] then none else some 0)

/-- Python 2 `int(s, 0)` restricted to the forms the input format documents
(optional sign, `0x`/`0X` hexadecimal, or decimal); anything else raises
`ValueError`.  (Py2 additionally accepts `0`-prefixed octal, which the
documented format does not use.) -/
def pyInt0 (s : String) : Except MErr Int :=
  let t := pyStrip s
  let negu : Bool × String :=
    if pyStartsWith t "-" then (true, pyDrop t 1)
    else if pyStartsWith t "+" then (false, pyDrop t 1) else (false, t)
  let core : Option Nat :=
    if pyStartsWith negu.2 "0x" || pyStartsWith negu.2 "0X" then
      digitsToNat hexDigit 16 (negu.2.data.drop 2)
    else digitsToNat decDigit 10 negu.2.data
  match core with
  | some n => .ok (if negu.1 then -(n : Int) else (n : Int))
  | none => .error .valueErr

/-- `MemoryMapRegionLabel` and `MemoryMapMultiRegionLabel` (lines 428-461). -/
inductive MLabel where
  | region (nodeid comment : String) (number : Int)
  | multi (topnode bottomnode comment : String) (number : Int)
deriving DecidableEq, Repr

/-- `MemoryMapNode.from_csv` (lines 402-407), column accesses in Python
evaluation order. -/
def MemoryMapNode_from_csv (row : List String) (lineno : Int) : Except MErr MNode := do
  let c2 ← pyIdx row 2
  let lo ← if pyStrip c2 = "" then pure (none : Option Int)
           else do pure (some (← pyInt0 (pyStrip c2)))
  let c3 ← pyIdx row 3
  let hi ← if pyStrip c3 = "" then pure (none : Option Int)
           else do pure (some (← pyInt0 (pyStrip c3)))
  let c1 ← pyIdx row 1
  let c4 ← pyIdx row 4
  pure (mkMemoryMapNode lo hi (pyStrip c1) (pyStrip c4) (pyJoin "," (row.drop 5)) lineno)

/-- `MemoryMapRegionLabel.from_csv` (lines 439-441). -/
def MemoryMapRegionLabel_from_csv (row : List String) (lineno : Int) : Except MErr MLabel := do
  let c1 ← pyIdx row 1
  pure (.region (pyStrip c1) (pyJoin "," (row.drop 2)) lineno)

/-- `MemoryMapMultiRegionLabel.from_csv` (lines 456-461). -/
def MemoryMapMultiRegionLabel_from_csv (row : List String) (lineno : Int) :
    Except MErr MLabel := do
  let c1 ← pyIdx row 1
  let c2 ← pyIdx row 2
  pure (.multi (pyStrip c1) (pyStrip c2) (pyJoin "," (row.drop 3)) lineno)

/-- Parser state: `self.nodes`, `self.labels`, `self.config`.  The Python
dict `self.config` is modelled as the journal of assignments in order;
`configGet` looks up the LAST assignment, which is observationally the
dict's overwrite semantics. -/
structure ParseState where
  nodes : List MNode
  labels : List MLabel
  config : List (String × String)
deriving DecidableEq, Repr

/-- Dict lookup on the assignment journal: the last assignment wins. -/
def configGet (m : List (String × String)) (k : String) : Option String :=
  match m with
  | [] => none
  | p :: rest =>
    match configGet rest k with
    | some v => some v
    | none => if p.1 = k then some p.2 else none

/-- One row of `MemoryMapCSVParser.parse` (lines 537-546): dispatch on the
stripped first column, silently ignoring unknown and empty rows. -/
def stepRow (i : Nat) (row : List String) (st : ParseState) : Except MErr ParseState :=
  if row ≠ [] ∧ pyStrip (row.headD "") = "node" then do
    let n ← MemoryMapNode_from_csv row (Int.ofNat i)
    pure { st with nodes := st.nodes ++ [n] }
  else if row ≠ [] ∧ pyStrip (row.headD "") = "regionlabel" then do
    let l ← MemoryMapRegionLabel_from_csv row (Int.ofNat i)
    pure { st with labels := st.labels ++ [l] }
  else if row ≠ [] ∧ pyStrip (row.headD "") = "multiregionlabel" then do
    let l ← MemoryMapMultiRegionLabel_from_csv row (Int.ofNat i)
    pure { st with labels := st.labels ++ [l] }
  else if row ≠ [] ∧ pyStrip (row.headD "") = "config" then do
    let c1 ← pyIdx row 1
    pure { st with config := st.config ++ [(pyStrip c1, pyJoin "," (row.drop 2))] }
  else pure st

/-- The row loop of `MemoryMapCSVParser.parse` (lines 536-547): `i` is the
row counter, incremented for every row, matched or not. -/
def parseRows : Nat → List (List String) → ParseState → Except MErr ParseState
  | _, [], st => .ok st
  | i, row :: rest, st => do
    let st1 ← stepRow i row st
    parseRows (i + 1) rest st1

/-- `MemoryMapCSVParser.parse` on pre-split rows. -/
def parse (rows : List (List String)) : Except MErr ParseState :=
  parseRows 0 rows ⟨[], [], []⟩

/-- Height as claim C7 words it (spec side, for refutation): the
proportional share `width/totalSpan*maxHeight` plus the growth bonus,
floored at the minimum height — with no halving. -/
def heightAsClaimed (width totalSpan maxHeight bonus : ℚ) : ℚ :=
  pyMax minheight (width / totalSpan * maxHeight + bonus)

/-! ## Relations used to state the resolver's ordering properties -/

/-- `a` was successfully compared before `b` by the ascending comparator. -/
def Rasc (a b : MNode) : Prop := ∃ c, compareascend a b = .ok c ∧ c < 0

/-- Both leading endpoints defined and strictly increasing. -/
def RloLt (a b : MNode) : Prop := ∃ al bl, a.lo = some al ∧ b.lo = some bl ∧ al < bl

/-- What `check_node` guarantees in ascending mode. -/
def NodeOKAsc (n : MNode) : Prop := ∃ l, n.lo = some l ∧ 0 ≤ l ∧ ∀ h, n.hi = some h → l < h

/-- Conditional adjacency: IF the first region's hi is defined, the next
region starts at it or one unit above it. -/
def ContigP (a b : MNode) : Prop := ∀ h, a.hi = some h → ∃ l, b.lo = some l ∧ (l = h ∨ l = h + 1)

/-- Adjacency after gap-filling: the first region's hi is defined and the
next region starts at it or one unit above it. -/
def ContigQ (a b : MNode) : Prop := ∃ h l, a.hi = some h ∧ b.lo = some l ∧ (l = h ∨ l = h + 1)

/-! ## General helper lemmas -/

theorem exceptBind_ok {α β : Type} {e : Except MErr α} {f : α → Except MErr β} {b : β}
    (h : (e >>= f) = .ok b) : ∃ a, e = .ok a ∧ f a = .ok b := by
  cases e with
  | error ε => simp [Bind.bind, Except.bind] at h
  | ok a => exact ⟨a, rfl, by simpa [Bind.bind, Except.bind] using h⟩

theorem exceptBind_ok_iff {α β : Type} {e : Except MErr α} {f : α → Except MErr β} {b : β} :
    (e >>= f) = .ok b ↔ ∃ a, e = .ok a ∧ f a = .ok b := by
  constructor
  · exact exceptBind_ok
  · rintro ⟨a, ha, hf⟩
    rw [ha]
    simpa [Bind.bind, Except.bind] using hf

theorem forM_ok_mem {l : List MNode} {f : MNode → Except MErr Unit}
    (h : List.forM l f = .ok ()) : ∀ x ∈ l, f x = .ok () := by
  induction l with
  | nil => intro x hx; cases hx
  | cons a as ih =>
    intro x hx
    rw [List.forM_cons'] at h
    obtain ⟨u, hu, hrest⟩ := exceptBind_ok h
    rcases List.mem_cons.mp hx with rfl | hx1
    · cases u; exact hu
    · exact ih hrest x hx1

/-! ## Claim C9: fixed-height mode -/

/-- C9 (confirmed): in fixed-height mode `calculate_height` returns the
constant `minheight + 0.2` for every region, independent of the region's
interval, of the span and height budget, and of the growth bonus; through
`populate_template` every node therefore gets that same height in fixed
mode. -/
theorem fixed_mode_height_constant :
    (∀ (n : MNode) (memrange maxheight additional : ℚ),
      calculate_height n memrange maxheight true additional = .ok (minheight + 0.2)) ∧
    (∀ (n : MNode) (reverse : Bool) (memrange maxheight : ℚ),
      Except.map Prod.snd (populate_template n reverse memrange maxheight true) =
        .ok (minheight + 0.2)) := by
  constructor
  · intro n mr mh add
    rfl
  · intro n rev mr mh
    simp [populate_template, calculate_height, Except.map, Bind.bind, Except.bind]

/-! ## Claim C8: growth prefix handling -/

/-- C8 counterexample: constructing a region whose kind carries the
"grow up " prefix sets the growth flag but does NOT strip the prefix: the
constructed kind is still "grow up stack", not the clean base form. -/
theorem construction_keeps_growth_prefix :
    (mkMemoryMapNode (some 0) (some 4) "grow up stack" "s" "" 1).grow = true ∧
    (mkMemoryMapNode (some 0) (some 4) "grow up stack" "s" "" 1).kind = "grow up stack" ∧
    "grow up stack" ≠ "stack" := by decide

/-- C8 amended: construction only records the annotation in the boolean
`grow` flag and leaves `kind` unchanged; the prefix is stripped from the
kind later, inside `populate_template`, which then overwrites the kind
with the assembled attribute string (ending in the stripped base form). -/
theorem growth_prefix_flag_then_render_strip :
    (∀ (lo hi : Option Int) (kind label comment : String) (number : Int),
      (mkMemoryMapNode lo hi kind label comment number).kind = kind ∧
      (mkMemoryMapNode lo hi kind label comment number).grow =
        (pyStartsWith kind "grow down " || pyStartsWith kind "grow up ")) ∧
    pyStrip (pyDrop "grow down stack" 9) = "stack" ∧
    populate_template (mkMemoryMapNode (some 0) (some 4) "grow down stack" "s" "" 1)
        false 4 20 false
      = .ok ({ mkMemoryMapNode (some 0) (some 4) "grow down stack" "s" "" 1 with
               kind := " very thick, grow up,stack" }, 12) := by
  refine ⟨fun lo hi k lab c num => ⟨rfl, rfl⟩, by decide, ?_⟩
  simp +decide [populate_template, calculate_height, pyMax, minheight, mkMemoryMapNode]
  norm_num
  decide

/-! ## Claim C7: proportional height -/

/-- C7 counterexample: for the region [0,16) with span 10 and budget 20
and no growth bonus, the code computes height 16 (the whole term is halved
by the `*0.5` factor), not the claimed 32. -/
theorem height_halving_counterexample :
    calculate_height (mkMemoryMapNode (some 0) (some 16) "regular" "a" "" 1)
        10 20 false 0 = .ok 16 ∧
    heightAsClaimed 16 10 20 0 = 32 ∧ (16 : ℚ) ≠ 32 := by
  refine ⟨?_, ?_, by norm_num⟩
  · simp +decide [calculate_height, pyMax, minheight, mkMemoryMapNode]
    norm_num
  · simp [heightAsClaimed, pyMax, minheight]
    norm_num

/-- C7 amended: in non-fixed mode the height computed for a node is
`max(minheight, (bonus + width/totalSpan*maxHeight) * 0.5)` where the
bonus is 4 exactly when the growth flag is set: the bonus is added before
the whole proportional term is halved, and the minimum-height floor
applies to the halved value. -/
theorem proportional_height_formula (n : MNode) (reverse : Bool)
    (memrange maxheight : ℚ) (l h : Int)
    (hl : n.lo = some l) (hh : n.hi = some h) (hmr : memrange ≠ 0) :
    Except.map Prod.snd (populate_template n reverse memrange maxheight false) =
      .ok (pyMax minheight
        (((if n.grow then 4 else 0) + (((h : ℚ) - (l : ℚ)) / memrange) * maxheight) * 0.5)) := by
  simp [populate_template, calculate_height, hl, hh, hmr, Except.map, Bind.bind, Except.bind]

/-- C7 amended, witness: the formula evaluated at a growth region. -/
theorem proportional_height_formula_witness :
    Except.map Prod.snd (populate_template
        (mkMemoryMapNode (some 0) (some 8) "grow up heap" "h" "" 3) false 16 40 false) =
      .ok (pyMax minheight
        (((if (mkMemoryMapNode (some 0) (some 8) "grow up heap" "h" "" 3).grow then 4 else 0) +
          (((8 : ℚ) - (0 : ℚ)) / 16) * 40) * 0.5)) :=
  proportional_height_formula _ false 16 40 0 8 rfl rfl (by norm_num)

/-! ## Claim C5: descending endpoint inference -/

/-- C5 (code bug): the descending branch of `fill_gaps` never infers the
first region's missing trailing endpoint ([None,30] before [10,20] is
accepted with the `lo` still undefined), and when the SECOND region of a
pair has an undefined `lo` it sets it from the FIRST region's `hi`,
turning [20,30],[None,20] into [20,30],[29,20] — an inverted range that
violates the script's own end-greater-than-start check. -/
theorem descending_fill_wrong_region :
    (sort_and_check_nodes true
      [mkMemoryMapNode none (some 30) "regular" "p" "" 1,
       mkMemoryMapNode (some 10) (some 20) "regular" "q" "" 2] =
      .ok [mkMemoryMapNode none (some 30) "regular" "p" "" 1,
           mkMemoryMapNode (some 10) (some 20) "regular" "q" "" 2]) ∧
    (mkMemoryMapNode none (some 30) "regular" "p" "" 1).lo = none ∧
    (sort_and_check_nodes true
      [mkMemoryMapNode (some 20) (some 30) "regular" "x" "" 1,
       mkMemoryMapNode none (some 20) "regular" "y" "" 2] =
      .ok [mkMemoryMapNode (some 20) (some 30) "regular" "x" "" 1,
           { mkMemoryMapNode none (some 20) "regular" "y" "" 2 with lo := some 29 }]) ∧
    ¬ ((29 : Int) < 20) := by decide

/-! ## Claim C3, counterexample part -/

/-- C3 counterexample: in ascending mode, resolution completes without
raising while the (single, hence final) region's `hi` is still undefined:
resolution neither raises nor produces endpoint totality. -/
theorem resolution_accepts_missing_hi :
    sort_and_check_nodes false [mkMemoryMapNode (some 0) none "regular" "r" "" 1] =
      .ok [mkMemoryMapNode (some 0) none "regular" "r" "" 1] ∧
    (mkMemoryMapNode (some 0) none "regular" "r" "" 1).hi = none := by decide

/-! ## Claim C1, counterexample part -/

/-- C1 counterexample: ascending regions [0,16) and [17,33) are accepted
with no blank inserted (the gap test is `n.lo > last.hi + 1`), leaving
adjacent regions with `next.lo = 17 ≠ 16 = prev.hi`; in descending mode
the broken lo-inference (see C5) even yields an adjacent pair with
`prev.lo = 29` next to `next.hi = 10`. -/
theorem contiguity_gap_counterexample :
    (sort_and_check_nodes false
      [mkMemoryMapNode (some 0) (some 16) "regular" "a" "" 1,
       mkMemoryMapNode (some 17) (some 33) "regular" "b" "" 2] =
      .ok [mkMemoryMapNode (some 0) (some 16) "regular" "a" "" 1,
           mkMemoryMapNode (some 17) (some 33) "regular" "b" "" 2] ∧
      (17 : Int) ≠ 16) ∧
    (sort_and_check_nodes true
      [mkMemoryMapNode (some 20) (some 30) "regular" "u" "" 1,
       mkMemoryMapNode none (some 20) "regular" "v" "" 2,
       mkMemoryMapNode (some 0) (some 10) "regular" "w" "" 3] =
      .ok [mkMemoryMapNode (some 20) (some 30) "regular" "u" "" 1,
           { mkMemoryMapNode none (some 20) "regular" "v" "" 2 with lo := some 29 },
           mkMemoryMapNode (some 0) (some 10) "regular" "w" "" 3] ∧
      (29 : Int) ≠ 10 ∧ (29 : Int) ≠ 10 + 1) := by decide

/-! ## Claim C2, counterexample part -/

/-- C2 counterexample: for [0, None] against [5,10) in ascending mode the
defined endpoints do not rule out intersection (the first region's `hi` is
undefined), yet the overlap check succeeds and the comparator classifies
the pair as ordered/disjoint instead of raising. -/
theorem ambiguous_pair_not_raised :
    check_range_overlap (mkMemoryMapNode (some 0) none "regular" "m" "" 1)
        (mkMemoryMapNode (some 5) (some 10) "regular" "n" "" 2) false = .ok () ∧
    compareascend (mkMemoryMapNode (some 0) none "regular" "m" "" 1)
        (mkMemoryMapNode (some 5) (some 10) "regular" "n" "" 2) = .ok (-5) ∧
    (mkMemoryMapNode (some 0) none "regular" "m" "" 1).hi = none := by decide

/-! ## Characterizing the pairwise checks -/

theorem check_range_asc_ok_iff (n : MNode) :
    check_range n false = .ok () ↔
      (∃ l, n.lo = some l ∧ ∀ h, n.hi = some h → l < h) := by
  unfold check_range
  rcases hlo : n.lo with _ | l <;> rcases hhi : n.hi with _ | h <;> simp [hlo, hhi]

theorem check_range_desc_ok_iff (n : MNode) :
    check_range n true = .ok () ↔
      (∃ h, n.hi = some h ∧ ∀ l, n.lo = some l → l < h) := by
  unfold check_range
  rcases hlo : n.lo with _ | l <;> rcases hhi : n.hi with _ | h <;> simp [hlo, hhi]

theorem cro_asc_ok_iff (a b : MNode) (al bl : Int)
    (ha : a.lo = some al) (hb : b.lo = some bl) :
    check_range_overlap a b false = .ok () ↔
      ((∀ h, a.hi = some h → al < h) ∧ (∀ h, b.hi = some h → bl < h) ∧
       al ≠ bl ∧
       (al < bl → ∀ h, a.hi = some h → h ≤ bl) ∧
       (bl < al → ∀ h, b.hi = some h → h ≤ al)) := by
  unfold check_range_overlap check_range
  rcases hahi : a.hi with _ | ah <;> rcases hbhi : b.hi with _ | bh <;>
    simp [ha, hb, hahi, hbhi, exceptBind_ok_iff, pyLtO, pyLeO, pyGeO, Bind.bind, Except.bind] <;>
    (constructor
     · intro hok
       split_ifs at hok <;> simp_all <;> omega
     · intro hrhs
       split_ifs <;> simp_all <;> omega)

theorem cro_desc_ok_iff (a b : MNode) (ah bh : Int)
    (ha : a.hi = some ah) (hb : b.hi = some bh) :
    check_range_overlap a b true = .ok () ↔
      ((∀ l, a.lo = some l → l < ah) ∧ (∀ l, b.lo = some l → l < bh) ∧
       ah ≠ bh ∧
       (ah < bh → ∀ l, b.lo = some l → ah ≤ l) ∧
       (bh < ah → ∀ l, a.lo = some l → bh ≤ l)) := by
  unfold check_range_overlap check_range
  rcases halo : a.lo with _ | al <;> rcases hblo : b.lo with _ | bl <;>
    simp [ha, hb, halo, hblo, exceptBind_ok_iff, pyLtO, pyLeO, pyGeO, Bind.bind, Except.bind] <;>
    (constructor
     · intro hok
       split_ifs at hok <;> simp_all <;> omega
     · intro hrhs
       split_ifs <;> simp_all <;> omega)

theorem cro_error_of_intersect (a b : MNode) (reverse : Bool) (al ah bl bh : Int)
    (hal : a.lo = some al) (hah : a.hi = some ah)
    (hbl : b.lo = some bl) (hbh : b.hi = some bh)
    (hva : al < ah) (hvb : bl < bh)
    (hint1 : al < bh) (hint2 : bl < ah) :
    check_range_overlap a b reverse = .error (.overlap a b) := by
  unfold check_range_overlap check_range
  cases reverse <;>
    simp [hal, hah, hbl, hbh, exceptBind_ok_iff, pyLtO, pyLeO, pyGeO, Bind.bind, Except.bind] <;>
    split_ifs <;> first | rfl | omega

/-! ## Claim C2, amended part -/

/-- C2 amended (corrected claim): when one region's opposing endpoint is
undefined, `check_range_overlap` does NOT raise on an ambiguous pair: it
compares only the defined endpoints and treats the pair as non-overlapping.
Precisely, with both direction-relevant endpoints defined the check
succeeds exactly when the defined endpoints fail to witness an overlap
(first two conjuncts, one per direction), and in particular a lower region
with undefined `hi` always passes against any region further up (third
conjunct). -/
theorem overlap_check_defined_endpoints_only :
    (∀ (a b : MNode) (al bl : Int), a.lo = some al → b.lo = some bl →
      (check_range_overlap a b false = .ok () ↔
        ((∀ h, a.hi = some h → al < h) ∧ (∀ h, b.hi = some h → bl < h) ∧
         al ≠ bl ∧
         (al < bl → ∀ h, a.hi = some h → h ≤ bl) ∧
         (bl < al → ∀ h, b.hi = some h → h ≤ al)))) ∧
    (∀ (a b : MNode) (ah bh : Int), a.hi = some ah → b.hi = some bh →
      (check_range_overlap a b true = .ok () ↔
        ((∀ l, a.lo = some l → l < ah) ∧ (∀ l, b.lo = some l → l < bh) ∧
         ah ≠ bh ∧
         (ah < bh → ∀ l, b.lo = some l → ah ≤ l) ∧
         (bh < ah → ∀ l, a.lo = some l → bh ≤ l)))) ∧
    (∀ (a b : MNode) (al bl : Int), a.lo = some al → b.lo = some bl →
      a.hi = none → al < bl → (∀ h, b.hi = some h → bl < h) →
      check_range_overlap a b false = .ok ()) := by
  refine ⟨cro_asc_ok_iff, cro_desc_ok_iff, ?_⟩
  intro a b al bl ha hb hahi hlt hbr
  exact (cro_asc_ok_iff a b al bl ha hb).mpr
    ⟨by simp [hahi], hbr, by omega, fun _ h hh => by simp [hahi] at hh, fun hgt => by omega⟩

/-- C2 amended, witness: the ambiguous pair [0,None], [5,10) passes the
ascending check. -/
theorem overlap_check_defined_endpoints_only_witness :
    ((mkMemoryMapNode (some 0) none "regular" "w1" "" 1).lo = some 0 ∧
     (mkMemoryMapNode (some 5) (some 10) "regular" "w2" "" 2).lo = some 5 ∧
     (mkMemoryMapNode (some 0) none "regular" "w1" "" 1).hi = none ∧
     (0 : Int) < 5) ∧
    check_range_overlap (mkMemoryMapNode (some 0) none "regular" "w1" "" 1)
      (mkMemoryMapNode (some 5) (some 10) "regular" "w2" "" 2) false = .ok () :=
  ⟨by decide,
   overlap_check_defined_endpoints_only.2.2 _ _ 0 5 rfl rfl rfl (by decide)
     (fun h hh => by cases hh; decide)⟩

/-! ## Claim C6: overlap is a hard failure -/

/-- C6 (confirmed): two regions with fully defined, valid, intersecting
intervals always make `check_range_overlap` raise an overlap error
carrying both offending regions, in either direction; sorting such a pair
therefore fails, so the resolver produces no resolved output. -/
theorem intersecting_regions_always_raise (a b : MNode) (reverse : Bool)
    (al ah bl bh : Int)
    (hal : a.lo = some al) (hah : a.hi = some ah)
    (hbl : b.lo = some bl) (hbh : b.hi = some bh)
    (hva : al < ah) (hvb : bl < bh)
    (hint1 : al < bh) (hint2 : bl < ah) :
    check_range_overlap a b reverse = .error (.overlap a b) ∧
    ∃ e, sort_and_check_nodes reverse [a, b] = .error e := by
  refine ⟨cro_error_of_intersect a b reverse al ah bl bh hal hah hbl hbh hva hvb hint1 hint2, ?_⟩
  have hba : check_range_overlap b a reverse = .error (.overlap b a) :=
    cro_error_of_intersect b a reverse bl bh al ah hbl hbh hal hah hvb hva hint2 hint1
  refine ⟨.overlap b a, ?_⟩
  cases reverse <;>
    simp [sort_and_check_nodes, sortCmp, sortFold, insertCmp, compareascend, comparedescend,
          hba, Bind.bind, Except.bind]

/-- C6 witness (Scenario B): [0,0x10) against [0x8,0x20) ascending. -/
theorem intersecting_regions_always_raise_witness :
    check_range_overlap (mkMemoryMapNode (some 0) (some 16) "regular" "sb1" "" 1)
        (mkMemoryMapNode (some 8) (some 32) "regular" "sb2" "" 2) false =
      .error (.overlap (mkMemoryMapNode (some 0) (some 16) "regular" "sb1" "" 1)
        (mkMemoryMapNode (some 8) (some 32) "regular" "sb2" "" 2)) ∧
    ∃ e, sort_and_check_nodes false
        [mkMemoryMapNode (some 0) (some 16) "regular" "sb1" "" 1,
         mkMemoryMapNode (some 8) (some 32) "regular" "sb2" "" 2] = .error e :=
  intersecting_regions_always_raise _ _ false 0 16 8 32 rfl rfl rfl rfl
    (by decide) (by decide) (by decide) (by decide)

/-! ## Claim C10: row dispatch and config overwrite -/
theorem configGet_append_eq (m : List (String × String)) (k v : String) :
    configGet (m ++ [(k, v)]) k = some v := by
  induction m with
  | nil => simp [configGet]
  | cons p rest ih => simp [configGet, ih]

theorem configGet_append_ne (m : List (String × String)) (k2 v k : String) (h : k2 ≠ k) :
    configGet (m ++ [(k2, v)]) k = configGet m k := by
  induction m with
  | nil => simp [configGet, h]
  | cons p rest ih => simp [configGet, ih]

theorem stepRow_config_preserved {i : Nat} {row : List String} {st st1 : ParseState} {k : String}
    (h : stepRow i row st = .ok st1)
    (hnot : ¬ (row ≠ [] ∧ pyStrip (row.headD "") = "config" ∧
               ∃ c1, pyIdx row 1 = .ok c1 ∧ pyStrip c1 = k)) :
    configGet st1.config k = configGet st.config k := by
  unfold stepRow at h
  split_ifs at h with h1 h2 h3 h4
  · obtain ⟨n, _, hn⟩ := exceptBind_ok h
    cases hn
    rfl
  · obtain ⟨l, _, hl⟩ := exceptBind_ok h
    cases hl
    rfl
  · obtain ⟨l, _, hl⟩ := exceptBind_ok h
    cases hl
    rfl
  · obtain ⟨c1, hc1, hst⟩ := exceptBind_ok h
    cases hst
    have hk : pyStrip c1 ≠ k := by
      intro heq
      exact hnot ⟨h4.1, h4.2, c1, hc1, heq⟩
    simpa using configGet_append_ne st.config (pyStrip c1) _ k hk
  · cases h
    rfl

theorem parseRows_config_preserved {rows : List (List String)} :
    ∀ {i : Nat} {st st' : ParseState} {k : String},
    parseRows i rows st = .ok st' →
    (∀ r ∈ rows, ¬ (r ≠ [] ∧ pyStrip (r.headD "") = "config" ∧
                    ∃ c1, pyIdx r 1 = .ok c1 ∧ pyStrip c1 = k)) →
    configGet st'.config k = configGet st.config k := by
  induction rows with
  | nil =>
    intro i st st' k h _
    cases h
    rfl
  | cons r rest ih =>
    intro i st st' k h hnone
    unfold parseRows at h
    obtain ⟨st1, hst1, hrest⟩ := exceptBind_ok h
    calc configGet st'.config k
        = configGet st1.config k := ih hrest (fun x hx => hnone x (List.mem_cons_of_mem _ hx))
      _ = configGet st.config k :=
          stepRow_config_preserved hst1 (hnone r (List.mem_cons_self _ _))

theorem stepRow_on_config (i : Nat) (k v : String) (st : ParseState) :
    stepRow i ["config", k, v] st = .ok { st with config := st.config ++ [(pyStrip k, v)] } := by
  unfold stepRow
  have h1 : pyStrip "config" = "config" := by decide
  norm_num [h1, pyIdx, pyJoin, Bind.bind, Except.bind, pure, Except.pure]
  simp +decide

/-- C10 (confirmed): a row whose stripped first column is none of the four
record kinds - and any empty row - is skipped: it contributes no record
and no error, yet still advances the row counter used for line-number
diagnostics; and when several config rows assign the same key, the value
of the last one is the one retained. -/
theorem csv_rows_skipped_and_config_last_wins :
    (∀ (i : Nat) (rows : List (List String)) (st : ParseState) (row : List String),
      (row = [] ∨ pyStrip (row.headD "") ∉
        (["node", "regionlabel", "multiregionlabel", "config"] : List String)) →
      parseRows i (row :: rows) st = parseRows (i + 1) rows st) ∧
    (∀ (i : Nat) (rows1 rows2 : List (List String)) (st st' : ParseState) (k v : String),
      parseRows i (rows1 ++ ["config", k, v] :: rows2) st = .ok st' →
      (∀ r ∈ rows2, ¬ (r ≠ [] ∧ pyStrip (r.headD "") = "config" ∧
                       ∃ c1, pyIdx r 1 = .ok c1 ∧ pyStrip c1 = pyStrip k)) →
      configGet st'.config (pyStrip k) = some v) := by
  constructor
  · intro i rows st row hrow
    have hstep : stepRow i row st = .ok st := by
      rcases hrow with rfl | hmem
      · rfl
      · simp only [List.mem_cons, List.mem_singleton, not_or] at hmem
        unfold stepRow
        rw [if_neg (fun h => hmem.1 h.2), if_neg (fun h => hmem.2.1 h.2),
            if_neg (fun h => hmem.2.2.1 h.2), if_neg (fun h => hmem.2.2.2.1 h.2)]
        rfl
    show (do
      let st1 ← stepRow i row st
      parseRows (i + 1) rows st1) = parseRows (i + 1) rows st
    rw [hstep]
    rfl
  · intro i rows1
    induction rows1 generalizing i with
    | nil =>
      intro rows2 st st' k v h hnone
      rw [List.nil_append] at h
      unfold parseRows at h
      rw [stepRow_on_config] at h
      obtain ⟨st1, hst1, hrest⟩ := exceptBind_ok h
      cases hst1
      rw [parseRows_config_preserved hrest hnone]
      exact configGet_append_eq st.config (pyStrip k) v
    | cons r rest ih =>
      intro rows2 st st' k v h hnone
      rw [List.cons_append] at h
      unfold parseRows at h
      obtain ⟨st1, _, hrest⟩ := exceptBind_ok h
      exact ih (i + 1) rows2 st1 st' k v hrest hnone

/-- C10 witness: a junk row is skipped with the counter advanced, and of
two `width` assignments the later one (`9`) is retained. -/
theorem csv_rows_skipped_and_config_last_wins_witness :
    (parseRows 5 [["junk", "x"]] ⟨[], [], []⟩ = parseRows 6 [] ⟨[], [], []⟩) ∧
    configGet (ParseState.config ⟨[], [], [("width", "4"), ("width", "9")]⟩)
      (pyStrip "width") = some "9" :=
  ⟨csv_rows_skipped_and_config_last_wins.1 5 [] ⟨[], [], []⟩ ["junk", "x"] (Or.inr (by decide)),
   csv_rows_skipped_and_config_last_wins.2 0 [["config", "width", "4"]] []
     ⟨[], [], []⟩ ⟨[], [], [("width", "4"), ("width", "9")]⟩ "width" "9"
     (by decide) (fun r hr => by cases hr)⟩

/-! ## The resolver's ordering machinery (ascending) -/

theorem compareascend_ok_parts {a b : MNode} {c : Int} (h : compareascend a b = .ok c) :
    check_range_overlap a b false = .ok () ∧
    ∃ al bl, a.lo = some al ∧ b.lo = some bl ∧ c = al - bl := by
  obtain ⟨u, hu, h2⟩ := exceptBind_ok h
  cases u
  refine ⟨hu, ?_⟩
  rcases halo : a.lo with _ | al <;> rcases hblo : b.lo with _ | bl <;>
    rw [halo, hblo] at h2 <;> simp [pySubO] at h2
  exact ⟨al, bl, rfl, rfl, h2.symm⟩

theorem compareascend_ok_of {a b : MNode} {al bl : Int}
    (hcro : check_range_overlap a b false = .ok ())
    (hal : a.lo = some al) (hbl : b.lo = some bl) :
    compareascend a b = .ok (al - bl) := by
  unfold compareascend
  rw [exceptBind_ok_iff]
  exact ⟨(), hcro, by simp [pySubO, hal, hbl]⟩

theorem cro_asc_symm {a b : MNode} (h : check_range_overlap a b false = .ok ()) :
    check_range_overlap b a false = .ok () := by
  have hcr : check_range a false = .ok () := by
    obtain ⟨u, hu, _⟩ := exceptBind_ok h
    cases u; exact hu
  have hcrb : check_range b false = .ok () := by
    obtain ⟨u, hu, h2⟩ := exceptBind_ok h
    obtain ⟨v, hv, _⟩ := exceptBind_ok h2
    cases v; exact hv
  obtain ⟨al, hal, -⟩ := (check_range_asc_ok_iff a).mp hcr
  obtain ⟨bl, hbl, -⟩ := (check_range_asc_ok_iff b).mp hcrb
  have h1 := (cro_asc_ok_iff a b al bl hal hbl).mp h
  exact (cro_asc_ok_iff b a bl al hbl hal).mpr
    ⟨h1.2.1, h1.1, fun e => h1.2.2.1 e.symm, h1.2.2.2.2, h1.2.2.2.1⟩

theorem Rasc_swap_of_pos {a b : MNode} {c : Int}
    (h : compareascend a b = .ok c) (hpos : 0 < c) : Rasc b a := by
  obtain ⟨hcro, al, bl, hal, hbl, hc⟩ := compareascend_ok_parts h
  exact ⟨bl - al, compareascend_ok_of (cro_asc_symm hcro) hbl hal, by omega⟩

theorem compareascend_ok_ne {a b : MNode} {c : Int} (h : compareascend a b = .ok c) : c ≠ 0 := by
  obtain ⟨hcro, al, bl, hal, hbl, hc⟩ := compareascend_ok_parts h
  have := (cro_asc_ok_iff a b al bl hal hbl).mp hcro
  omega

theorem Rasc_loLt {a b : MNode} (h : Rasc a b) : RloLt a b := by
  obtain ⟨c, hc, hneg⟩ := h
  obtain ⟨hcro, al, bl, hal, hbl, hdiff⟩ := compareascend_ok_parts hc
  exact ⟨al, bl, hal, hbl, by omega⟩

theorem RloLt_trans : ∀ {a b c : MNode}, RloLt a b → RloLt b c → RloLt a c := by
  rintro a b c ⟨al, bl, hal, hbl, h1⟩ ⟨bl2, cl, hbl2, hcl, h2⟩
  rw [hbl] at hbl2
  cases hbl2
  exact ⟨al, cl, hal, hcl, by omega⟩

theorem check_node_asc_ok {n : MNode} (h : check_node false n = .ok ()) : NodeOKAsc n := by
  unfold check_node at h
  rcases hlo : n.lo with _ | l <;> rcases hhi : n.hi with _ | hh <;>
    rw [hlo, hhi] at h <;> simp [optNeg, optGe] at h
  · exact ⟨l, hlo, by omega, fun x hx => by rw [hhi] at hx; cases hx⟩
  · split_ifs at h with hx1 hx2 hx3 ; try cases h
    exact ⟨l, hlo, by omega, fun x hx => by rw [hhi] at hx; cases hx; omega⟩

-- sort machinery, part 2: permutation and chain preservation
theorem insertCmp_perm {cmp : MNode → MNode → Except MErr Int} {x : MNode} :
    ∀ {l l' : List MNode}, insertCmp cmp x l = .ok l' → l'.Perm (x :: l) := by
  intro l
  induction l with
  | nil =>
    intro l' h
    unfold insertCmp at h
    cases h
    exact List.Perm.refl _
  | cons y ys ih =>
    intro l' h
    unfold insertCmp at h
    obtain ⟨c, hc, h2⟩ := exceptBind_ok h
    by_cases hneg : c < 0
    · rw [if_pos hneg] at h2
      cases h2
      exact List.Perm.refl _
    · rw [if_neg hneg] at h2
      obtain ⟨r, hr, h3⟩ := exceptBind_ok h2
      cases h3
      exact ((ih hr).cons y).trans (List.Perm.swap x y ys)

theorem sortFold_perm {cmp : MNode → MNode → Except MErr Int} :
    ∀ {l acc s : List MNode}, sortFold cmp l acc = .ok s → s.Perm (l ++ acc) := by
  intro l
  induction l with
  | nil =>
    intro acc s h
    cases h
    exact List.Perm.refl _
  | cons x rest ih =>
    intro acc s h
    unfold sortFold at h
    obtain ⟨acc1, hacc1, h2⟩ := exceptBind_ok h
    have h3 := ih h2
    have h4 := insertCmp_perm hacc1
    exact h3.trans ((List.Perm.append_left rest h4).trans List.perm_middle)

theorem sortCmp_perm {cmp : MNode → MNode → Except MErr Int} {l s : List MNode}
    (h : sortCmp cmp l = .ok s) : s.Perm l := by
  have := sortFold_perm h
  simpa using this

theorem insertCmp_shape {cmp : MNode → MNode → Except MErr Int} {x : MNode} {l l' : List MNode}
    (h : insertCmp cmp x l = .ok l') :
    l' = x :: l ∨ ∃ y ys r, l = y :: ys ∧ l' = y :: r ∧ insertCmp cmp x ys = .ok r := by
  cases l with
  | nil =>
    unfold insertCmp at h
    cases h
    exact Or.inl rfl
  | cons y ys =>
    unfold insertCmp at h
    obtain ⟨c, hc, h2⟩ := exceptBind_ok h
    by_cases hneg : c < 0
    · rw [if_pos hneg] at h2
      cases h2
      exact Or.inl rfl
    · rw [if_neg hneg] at h2
      obtain ⟨r, hr, h3⟩ := exceptBind_ok h2
      cases h3
      exact Or.inr ⟨y, ys, r, rfl, rfl, hr⟩

theorem insertCmp_chain {x : MNode} :
    ∀ {l l' : List MNode}, insertCmp compareascend x l = .ok l' →
      l.Chain' Rasc → l'.Chain' Rasc := by
  intro l
  induction l with
  | nil =>
    intro l' h _
    unfold insertCmp at h
    cases h
    simp
  | cons y ys ih =>
    intro l' h hchain
    unfold insertCmp at h
    obtain ⟨c, hc, h2⟩ := exceptBind_ok h
    by_cases hneg : c < 0
    · rw [if_pos hneg] at h2
      cases h2
      exact hchain.cons ⟨c, hc, hneg⟩
    · rw [if_neg hneg] at h2
      obtain ⟨r, hr, h3⟩ := exceptBind_ok h2
      cases h3
      have hyx : Rasc y x := by
        have hpos : 0 < c := by
          have := compareascend_ok_ne hc
          omega
        exact Rasc_swap_of_pos hc hpos
      have hrchain : r.Chain' Rasc := ih hr hchain.tail
      rcases insertCmp_shape hr with rfl | ⟨z, zs, r2, hys, hreq, _⟩
      · exact hrchain.cons hyx
      · subst hys
        subst hreq
        exact hrchain.cons (List.chain'_cons.mp hchain).1

theorem sortFold_chain :
    ∀ {l acc s : List MNode}, sortFold compareascend l acc = .ok s →
      acc.Chain' Rasc → s.Chain' Rasc := by
  intro l
  induction l with
  | nil =>
    intro acc s h hacc
    cases h
    exact hacc
  | cons x rest ih =>
    intro acc s h hacc
    unfold sortFold at h
    obtain ⟨acc1, hacc1, h2⟩ := exceptBind_ok h
    exact ih h2 (insertCmp_chain hacc1 hacc)

theorem sortCmp_chain {l s : List MNode} (h : sortCmp compareascend l = .ok s) :
    s.Chain' Rasc :=
  sortFold_chain h (by simp)

theorem chain'_rasc_pairwise {s : List MNode} (h : s.Chain' Rasc) : s.Pairwise RloLt := by
  have h2 : s.Chain' RloLt := h.imp (fun _ _ => Rasc_loLt)
  have inst : IsTrans MNode RloLt := ⟨fun _ _ _ => RloLt_trans⟩
  exact (@List.chain'_iff_pairwise _ _ inst _).mp h2

-- gap scan lemmas
theorem gapScanAsc_sound :
    ∀ {s : List MNode} {β : MNode}, β ∈ gapScanAsc s →
      ∃ (k : Nat) (hk : k + 1 < s.length) (g w : Int),
        (s.get ⟨k, by omega⟩).hi = some g ∧ (s.get ⟨k + 1, hk⟩).lo = some w ∧
        g ≠ 0 ∧ g + 1 < w ∧ β = BlankRegionNode (some g) (some w) := by
  intro s
  induction s with
  | nil => intro β hβ; cases hβ
  | cons a t ih =>
    cases t with
    | nil => intro β hβ; cases hβ
    | cons b rest =>
      intro β hβ
      rcases hahi : a.hi with _ | g
      · simp only [gapScanAsc, hahi, List.nil_append] at hβ
        obtain ⟨k, hk, g, w, h1, h2, h3, h4, h5⟩ := ih hβ
        exact ⟨k + 1, by simp only [List.length_cons] at hk ⊢; omega, g, w, h1, h2, h3, h4, h5⟩
      · simp only [gapScanAsc, hahi] at hβ
        rcases List.mem_append.mp hβ with hmem | hmem
        · by_cases hcond : g ≠ 0 ∧ pyGtO b.lo (some (g + 1))
          · rw [if_pos hcond] at hmem
            rcases hblo : b.lo with _ | w
            · rw [hblo] at hcond
              simp [pyGtO, pyLtO] at hcond
            · rcases List.mem_singleton.mp hmem with rfl
              refine ⟨0, by simp, g, w, hahi, hblo, hcond.1, ?_, by rw [hblo]⟩
              have hgt := hcond.2
              rw [hblo] at hgt
              simpa [pyGtO, pyLtO] using hgt
          · rw [if_neg hcond] at hmem
            cases hmem
        · obtain ⟨k, hk, g2, w, h1, h2, h3, h4, h5⟩ := ih hmem
          exact ⟨k + 1, by simp only [List.length_cons] at hk ⊢; omega, g2, w, h1, h2, h3, h4, h5⟩

theorem gapScanAsc_complete :
    ∀ {s : List MNode} (k : Nat) (hk : k + 1 < s.length) (g w : Int),
      (s.get ⟨k, by omega⟩).hi = some g → (s.get ⟨k + 1, hk⟩).lo = some w →
      g ≠ 0 → g + 1 < w →
      BlankRegionNode (some g) (some w) ∈ gapScanAsc s := by
  intro s
  induction s with
  | nil => intro k hk; simp at hk
  | cons a t ih =>
    cases t with
    | nil => intro k hk; simp at hk
    | cons b rest =>
      intro k hk g w h1 h2 hg hgap
      cases k with
      | zero =>
        have h1a : a.hi = some g := h1
        have h2b : b.lo = some w := h2
        simp only [gapScanAsc, h1a, h2b]
        apply List.mem_append.mpr
        left
        rw [if_pos ⟨hg, by simp [pyGtO, pyLtO]; omega⟩]
        simp
      | succ k2 =>
        have h1t : ((b :: rest).get ⟨k2, by simp only [List.length_cons] at hk ⊢; omega⟩).hi = some g := h1
        have h2t : ((b :: rest).get ⟨k2 + 1, by simp only [List.length_cons] at hk ⊢; omega⟩).lo = some w := h2
        have hmem := ih k2 (by simp only [List.length_cons] at hk ⊢; omega) g w h1t h2t hg hgap
        rcases hahi : a.hi with _ | g0
        · simpa [gapScanAsc, hahi] using hmem
        · simp only [gapScanAsc, hahi]
          exact List.mem_append.mpr (Or.inr hmem)

-- split-based helpers
theorem chain'_of_splits {R : MNode → MNode → Prop} {l : List MNode}
    (h : ∀ u a b v, l = u ++ a :: b :: v → R a b) : l.Chain' R := by
  induction l with
  | nil => simp
  | cons x t ih =>
    cases t with
    | nil => simp
    | cons y t2 =>
      refine List.chain'_cons.mpr ⟨h [] x y t2 rfl, ih ?_⟩
      intro u a b v heq
      exact h (x :: u) a b v (by rw [heq]; rfl)

theorem gapScanAsc_complete_split :
    ∀ {u1 : List MNode} {a t : MNode} {v1 : List MNode} (g w : Int),
      a.hi = some g → t.lo = some w → g ≠ 0 → g + 1 < w →
      BlankRegionNode (some g) (some w) ∈ gapScanAsc (u1 ++ a :: t :: v1) := by
  intro u1
  induction u1 with
  | nil =>
    intro a t v1 g w h1 h2 hg hgap
    simp only [List.nil_append, gapScanAsc, h1, h2]
    apply List.mem_append.mpr
    left
    rw [if_pos ⟨hg, by simp [pyGtO, pyLtO]; omega⟩]
    simp
  | cons x u1' ih =>
    intro a t v1 g w h1 h2 hg hgap
    have hshape : gapScanAsc (x :: (u1' ++ a :: t :: v1)) =
        (match x.hi with
         | some h =>
             if h ≠ 0 ∧ pyGtO ((u1' ++ a :: t :: v1).headD x).lo (some (h + 1)) then
               [BlankRegionNode x.hi ((u1' ++ a :: t :: v1).headD x).lo]
             else []
         | none => []) ++ gapScanAsc (u1' ++ a :: t :: v1) := by
      cases u1' <;> rfl
    rw [List.cons_append, hshape]
    exact List.mem_append_right _ (ih g w h1 h2 hg hgap)

theorem gapScanAsc_sound_split :
    ∀ {s : List MNode} {β : MNode}, β ∈ gapScanAsc s →
      ∃ p x y q g w, s = p ++ x :: y :: q ∧ x.hi = some g ∧ y.lo = some w ∧
        g ≠ 0 ∧ g + 1 < w ∧ β = BlankRegionNode (some g) (some w) := by
  intro s
  induction s with
  | nil => intro β hβ; cases hβ
  | cons a t ih =>
    cases t with
    | nil => intro β hβ; cases hβ
    | cons b rest =>
      intro β hβ
      rcases hahi : a.hi with _ | g
      · simp only [gapScanAsc, hahi, List.nil_append] at hβ
        obtain ⟨p, x, y, q, g, w, heq, h1, h2, h3, h4, h5⟩ := ih hβ
        exact ⟨a :: p, x, y, q, g, w, by rw [heq]; rfl, h1, h2, h3, h4, h5⟩
      · simp only [gapScanAsc, hahi] at hβ
        rcases List.mem_append.mp hβ with hmem | hmem
        · by_cases hcond : g ≠ 0 ∧ pyGtO b.lo (some (g + 1))
          · rw [if_pos hcond] at hmem
            rcases hblo : b.lo with _ | w
            · rw [hblo] at hcond
              simp [pyGtO, pyLtO] at hcond
            · rcases List.mem_singleton.mp hmem with rfl
              refine ⟨[], a, b, rest, g, w, rfl, hahi, hblo, hcond.1, ?_, by rw [hblo]⟩
              have hgt := hcond.2
              rw [hblo] at hgt
              simpa [pyGtO, pyLtO] using hgt
          · rw [if_neg hcond] at hmem
            cases hmem
        · obtain ⟨p, x, y, q, g2, w, heq, h1, h2, h3, h4, h5⟩ := ih hmem
          exact ⟨a :: p, x, y, q, g2, w, by rw [heq]; rfl, h1, h2, h3, h4, h5⟩

theorem pairwise_split_facts {u v : List MNode} {a b : MNode}
    (hpw : (u ++ a :: b :: v).Pairwise RloLt) :
    (∀ z ∈ u, RloLt z a) ∧ RloLt a b ∧ (∀ z ∈ v, RloLt b z) := by
  obtain ⟨hu, hw, hcross⟩ := List.pairwise_append.mp hpw
  obtain ⟨ha, hw2⟩ := List.pairwise_cons.mp hw
  obtain ⟨hb, _⟩ := List.pairwise_cons.mp hw2
  exact ⟨fun z hz => hcross z hz a (by simp),
         ha b (by simp),
         fun z hz => hb z hz⟩

theorem pairwise_last_facts {u1 : List MNode} {a : MNode}
    (hpw : (u1 ++ [a]).Pairwise RloLt) : ∀ z ∈ u1, RloLt z a := by
  obtain ⟨-, -, hcross⟩ := List.pairwise_append.mp hpw
  exact fun z hz => hcross z hz a (by simp)

theorem sorted_checked_blanks_no_gap {s s2 : List MNode}
    (hchain_s : s.Chain' Rasc)
    (hwf : ∀ x ∈ s, NodeOKAsc x)
    (hs2 : sortCmp compareascend (s ++ gapScanAsc s) = .ok s2) :
    s2.Chain' ContigP := by
  have hchain2 : s2.Chain' Rasc := sortCmp_chain hs2
  have hperm : s2.Perm (s ++ gapScanAsc s) := sortCmp_perm hs2
  have hpw2 : s2.Pairwise RloLt := chain'_rasc_pairwise hchain2
  have hpw_s : s.Pairwise RloLt := chain'_rasc_pairwise hchain_s
  apply chain'_of_splits
  intro u a b v hsplit
  unfold ContigP
  intro hh hahi
  have hRab : Rasc a b := by
    have hsuf : (a :: b :: v).Chain' Rasc := by
      rw [hsplit] at hchain2
      exact (List.chain'_append.mp hchain2).2.1
    exact (List.chain'_cons.mp hsuf).1
  obtain ⟨c, hcmp, hcneg⟩ := hRab
  obtain ⟨hcro, al, bl, hal, hbl, hcdiff⟩ := compareascend_ok_parts hcmp
  have hiff := (cro_asc_ok_iff a b al bl hal hbl).mp hcro
  have halb : al < bl := by omega
  have hhle : hh ≤ bl := hiff.2.2.2.1 halb hh hahi
  refine ⟨bl, hbl, ?_⟩
  by_contra hcon
  push_neg at hcon
  have hgap2 : hh + 2 ≤ bl := by omega
  have hfacts := pairwise_split_facts (hsplit ▸ hpw2)
  have hnb : ∀ z ∈ s2, ∀ zl : Int, z.lo = some zl → al < zl → zl < bl → False := by
    intro z hz zl hzlo h1 h2
    rw [hsplit] at hz
    rcases List.mem_append.mp hz with hzu | hzw
    · obtain ⟨zl2, al2, hz2, ha2, hlt⟩ := hfacts.1 z hzu
      rw [hzlo] at hz2
      rw [hal] at ha2
      cases hz2
      cases ha2
      omega
    · rcases List.mem_cons.mp hzw with rfl | hzw2
      · rw [hal] at hzlo
        cases hzlo
        omega
      · rcases List.mem_cons.mp hzw2 with rfl | hzv
        · rw [hbl] at hzlo
          cases hzlo
          omega
        · obtain ⟨bl2, zl2, hb2, hz2, hlt⟩ := hfacts.2.2 z hzv
          rw [hzlo] at hz2
          rw [hbl] at hb2
          cases hz2
          cases hb2
          omega
  have hmem_s2 : ∀ z, z ∈ s ++ gapScanAsc s → z ∈ s2 := fun z hz => hperm.mem_iff.mpr hz
  have ha_s2 : a ∈ s ++ gapScanAsc s := hperm.mem_iff.mp (by rw [hsplit]; simp)
  rcases List.mem_append.mp ha_s2 with has | hab
  · -- a is an input node
    obtain ⟨u1, v1, hs_split⟩ := List.append_of_mem has
    cases v1 with
    | nil =>
      -- a is the last input node; b can only be a blank
      have hb_s2 : b ∈ s ++ gapScanAsc s := hperm.mem_iff.mp (by rw [hsplit]; simp)
      rcases List.mem_append.mp hb_s2 with hbs | hbb
      · rw [hs_split] at hbs hpw_s
        rcases List.mem_append.mp hbs with hbu | hba
        · obtain ⟨bl2, al2, hb2, ha2, hlt⟩ := pairwise_last_facts hpw_s b hbu
          rw [hbl] at hb2
          rw [hal] at ha2
          cases hb2
          cases ha2
          omega
        · rcases List.mem_singleton.mp hba with rfl
          rw [hal] at hbl
          cases hbl
          omega
      · obtain ⟨p, x, y, q, g, w, hsplit_s, hxhi, hylo, hgne, hgap3, hbeq⟩ :=
          gapScanAsc_sound_split hbb
        have hblo_g : b.lo = some g := by rw [hbeq]; rfl
        rw [hbl] at hblo_g
        cases hblo_g
        have hy_s : y ∈ s := by rw [hsplit_s]; simp
        rw [hs_split] at hy_s hpw_s
        rcases List.mem_append.mp hy_s with hyu | hya
        · obtain ⟨w2, al2, hy2, ha2, hlt⟩ := pairwise_last_facts hpw_s y hyu
          rw [hylo] at hy2
          rw [hal] at ha2
          cases hy2
          cases ha2
          omega
        · rcases List.mem_singleton.mp hya with rfl
          rw [hal] at hylo
          cases hylo
          omega
    | cons t v1' =>
      have hchain_suffix : (a :: t :: v1').Chain' Rasc := by
        rw [hs_split] at hchain_s
        exact (List.chain'_append.mp hchain_s).2.1
      obtain ⟨c2, hcmp2, hcneg2⟩ := (List.chain'_cons.mp hchain_suffix).1
      obtain ⟨hcro2, al2, tl, hal2, htlo, hcdiff2⟩ := compareascend_ok_parts hcmp2
      rw [hal] at hal2
      cases hal2
      have hiff2 := (cro_asc_ok_iff a t al tl hal htlo).mp hcro2
      have haltl : al < tl := by omega
      have hhtl : hh ≤ tl := hiff2.2.2.2.1 haltl hh hahi
      have ht_s2 : t ∈ s2 :=
        hmem_s2 t (List.mem_append_left _ (by rw [hs_split]; simp))
      have htl_ge : bl ≤ tl := by
        by_contra hlt2
        push_neg at hlt2
        exact hnb t ht_s2 tl htlo haltl hlt2
      obtain ⟨al3, hal3, hge0, hlohh⟩ := hwf a has
      rw [hal] at hal3
      cases hal3
      have halhh : al < hh := hlohh hh hahi
      have hblank := @gapScanAsc_complete_split u1 a t v1' hh tl hahi htlo
        (by omega) (by omega)
      rw [← hs_split] at hblank
      have hβ_s2 : BlankRegionNode (some hh) (some tl) ∈ s2 :=
        hmem_s2 _ (List.mem_append_right _ hblank)
      exact hnb _ hβ_s2 hh rfl (by omega) (by omega)
  · -- a is itself a blank
    obtain ⟨p, x, y, q, g, w, hsplit_s, hxhi, hylo, hgne, hgap3, haeq⟩ :=
      gapScanAsc_sound_split hab
    have halo_g : a.lo = some g := by rw [haeq]; rfl
    rw [hal] at halo_g
    cases halo_g
    have hahi_w : a.hi = some w := by rw [haeq]; rfl
    rw [hahi] at hahi_w
    cases hahi_w
    have hy_s2 : y ∈ s2 :=
      hmem_s2 y (List.mem_append_left _ (by rw [hsplit_s]; simp))
    exact hnb y hy_s2 hh hylo (by omega) (by omega)

-- fill_gaps lemmas (ascending)
theorem fill_walk_asc_cons {last n : MNode} {rest out : List MNode}
    (h : fill_walk false last (n :: rest) = .ok out) :
    ∃ last1 r, out = last1 :: r ∧ fill_walk false n rest = .ok r ∧
      last1.lo = last.lo ∧
      ((last.hi ≠ none ∧ last1 = last) ∨
       (last.hi = none ∧ ∃ w, n.lo = some w ∧ last1 = { last with hi := some (w - 1) })) := by
  unfold fill_walk at h
  rw [if_pos rfl] at h
  obtain ⟨last1, hl1, h2⟩ := exceptBind_ok h
  obtain ⟨r, hr, h3⟩ := exceptBind_ok h2
  cases h3
  unfold fillHiAsc at hl1
  by_cases hhi : last.hi = none
  · rw [if_pos hhi] at hl1
    rcases hnlo : n.lo with _ | w
    · simp only [hnlo] at hl1
      cases hl1
    · simp only [hnlo] at hl1
      cases hl1
      exact ⟨_, r, rfl, hr, rfl, Or.inr ⟨hhi, w, rfl, rfl⟩⟩
  · rw [if_neg hhi] at hl1
    cases hl1
    exact ⟨last, r, rfl, hr, rfl, Or.inl ⟨hhi, rfl⟩⟩

theorem fill_walk_asc_head {last : MNode} {l out : List MNode}
    (h : fill_walk false last l = .ok out) :
    ∃ z t, out = z :: t ∧ z.lo = last.lo := by
  cases l with
  | nil =>
    unfold fill_walk at h
    cases h
    exact ⟨last, [], rfl, rfl⟩
  | cons n rest =>
    obtain ⟨last1, r, rfl, _, hlo, _⟩ := fill_walk_asc_cons h
    exact ⟨last1, r, rfl, hlo⟩

theorem fill_walk_asc_chain :
    ∀ {l : List MNode} {last : MNode} {out : List MNode},
      fill_walk false last l = .ok out →
      List.Chain' ContigP (last :: l) → List.Chain' ContigQ out := by
  intro l
  induction l with
  | nil =>
    intro last out h _
    unfold fill_walk at h
    cases h
    simp
  | cons n rest ih =>
    intro last out h hchain
    obtain ⟨last1, r, rfl, hr, hlo, hcase⟩ := fill_walk_asc_cons h
    have hch2 : r.Chain' ContigQ := ih hr hchain.tail
    obtain ⟨z, t, rfl, hzlo⟩ := fill_walk_asc_head hr
    refine List.chain'_cons.mpr ⟨?_, hch2⟩
    rcases hcase with ⟨hne, heq⟩ | ⟨hnone, w, hnlo, heq⟩
    · rcases hhi : last.hi with _ | hh
      · exact absurd hhi hne
      · obtain ⟨lw, hlw, hor⟩ := (List.chain'_cons.mp hchain).1 hh hhi
        exact ⟨hh, lw, by rw [heq]; exact hhi, hzlo.trans hlw, hor⟩
    · exact ⟨w - 1, w, by rw [heq], hzlo.trans hnlo, Or.inr (by omega)⟩

theorem fill_walk_asc_lo_map :
    ∀ {l : List MNode} {last : MNode} {out : List MNode},
      fill_walk false last l = .ok out →
      out.map MNode.lo = (last :: l).map MNode.lo := by
  intro l
  induction l with
  | nil =>
    intro last out h
    unfold fill_walk at h
    cases h
    rfl
  | cons n rest ih =>
    intro last out h
    obtain ⟨last1, r, rfl, hr, hlo, _⟩ := fill_walk_asc_cons h
    simp only [List.map_cons]
    rw [hlo, ih hr]
    rfl

theorem fill_walk_asc_hi_def :
    ∀ {l : List MNode} {last : MNode} {out : List MNode},
      fill_walk false last l = .ok out →
      ∀ (i : Nat) (hi2 : i + 1 < out.length), (out.get ⟨i, by omega⟩).hi ≠ none := by
  intro l
  induction l with
  | nil =>
    intro last out h i hi2
    unfold fill_walk at h
    cases h
    simp at hi2
  | cons n rest ih =>
    intro last out h i hi2
    obtain ⟨last1, r, rfl, hr, hlo, hcase⟩ := fill_walk_asc_cons h
    cases i with
    | zero =>
      rcases hcase with ⟨hne, rfl⟩ | ⟨hnone, w, hnlo, rfl⟩
      · exact hne
      · simp
    | succ k =>
      have hk : k + 1 < r.length := by
        simp only [List.length_cons] at hi2
        omega
      exact ih hr k hk

theorem sacn_asc_parts {nodes0 out : List MNode}
    (h : sort_and_check_nodes false nodes0 = .ok out) :
    ∃ s s2, sortCmp compareascend nodes0 = .ok s ∧
      (∀ x ∈ s, check_node false x = .ok ()) ∧
      sortCmp compareascend (s ++ gapScanAsc s) = .ok s2 ∧
      fill_gaps_walk false s2 = .ok out := by
  unfold sort_and_check_nodes at h
  obtain ⟨s, hs, h⟩ := exceptBind_ok h
  beta_reduce at h
  obtain ⟨u, hu, h⟩ := exceptBind_ok h
  cases u
  obtain ⟨s2, hs2, h⟩ := exceptBind_ok h
  exact ⟨s, s2, hs, forM_ok_mem hu, hs2, h⟩

theorem s2_members_lo_def {s s2 : List MNode}
    (hwf : ∀ x ∈ s, NodeOKAsc x)
    (hs2 : sortCmp compareascend (s ++ gapScanAsc s) = .ok s2) :
    ∀ x ∈ s2, x.lo ≠ none := by
  intro x hx
  have hperm : s2.Perm (s ++ gapScanAsc s) := sortCmp_perm hs2
  rcases List.mem_append.mp (hperm.mem_iff.mp hx) with hxs | hxb
  · obtain ⟨l, hl, -, -⟩ := hwf x hxs
    rw [hl]
    simp
  · obtain ⟨p, x1, y, q, g, w, -, -, -, -, -, hxeq⟩ := gapScanAsc_sound_split hxb
    rw [hxeq]
    simp [BlankRegionNode, mkMemoryMapNode]

/-- C1 amended (corrected claim): in ascending mode, every pair of
adjacent regions in an accepted resolved sequence satisfies
`next.lo = prev.hi` OR `next.lo = prev.hi + 1` (the code inserts no blank
for a one-unit gap, and endpoint inference uses `next.lo - 1`); the
descending mode analogue fails entirely because of the broken descending
endpoint inference (see the counterexample and C5). -/
theorem resolver_ascending_contiguity (nodes0 out : List MNode)
    (h : sort_and_check_nodes false nodes0 = .ok out) :
    out.Chain' ContigQ := by
  obtain ⟨s, s2, hs, hchk, hs2, hfill⟩ := sacn_asc_parts h
  have hwf : ∀ x ∈ s, NodeOKAsc x := fun x hx => check_node_asc_ok (hchk x hx)
  have hchain_s : s.Chain' Rasc := sortCmp_chain hs
  have hP : s2.Chain' ContigP := sorted_checked_blanks_no_gap hchain_s hwf hs2
  cases s2 with
  | nil =>
    unfold fill_gaps_walk at hfill
    cases hfill
    simp
  | cons n rest =>
    unfold fill_gaps_walk at hfill
    exact fill_walk_asc_chain hfill hP

theorem pySubO_none_left (x : Option Int) : pySubO none x = .error .typeErr := by
  cases x <;> rfl

theorem gapScanDesc_complete :
    ∀ {s : List MNode} (k : Nat) (hk : k + 1 < s.length) (g w : Int),
      (s.get ⟨k, by omega⟩).lo = some g → (s.get ⟨k + 1, hk⟩).hi = some w →
      0 ≤ w → w + 1 < g →
      BlankRegionNode (some w) (some g) ∈ gapScanDesc s := by
  intro s
  induction s with
  | nil => intro k hk; simp at hk
  | cons a t ih =>
    cases t with
    | nil => intro k hk; simp at hk
    | cons b rest =>
      intro k hk g w h1 h2 hw hgap
      cases k with
      | zero =>
        have h1a : a.lo = some g := h1
        have h2b : b.hi = some w := h2
        simp only [gapScanDesc, h1a, h2b]
        apply List.mem_append.mpr
        left
        rw [if_pos ⟨by omega, by simp [pyLtO]; omega⟩]
        simp
      | succ k2 =>
        have h1t : ((b :: rest).get ⟨k2, by simp only [List.length_cons] at hk ⊢; omega⟩).lo
            = some g := h1
        have h2t : ((b :: rest).get ⟨k2 + 1, by simp only [List.length_cons] at hk ⊢; omega⟩).hi
            = some w := h2
        have hmem := ih k2 (by simp only [List.length_cons] at hk ⊢; omega) g w h1t h2t hw hgap
        rcases halo : a.lo with _ | g0
        · simpa [gapScanDesc, halo] using hmem
        · simp only [gapScanDesc, halo]
          exact List.mem_append.mpr (Or.inr hmem)

/-- C3 amended (corrected claim): ascending resolution that returns
normally guarantees a defined `lo` on every region and a defined `hi` on
every region except possibly the last; a final region whose `hi` is still
undefined is not silently accepted into rendered output — generation
fails (the unchecked `None` arithmetic computing the address span, a
`TypeError` in Python) — but resolution itself raises no error for it,
and the generator's own explicit guard never fires. -/
theorem resolution_partial_totality (nodes0 out : List MNode)
    (h : sort_and_check_nodes false nodes0 = .ok out) :
    (∀ n ∈ out, n.lo ≠ none) ∧
    (∀ (i : Nat) (hi2 : i + 1 < out.length), (out.get ⟨i, by omega⟩).hi ≠ none) ∧
    (∀ (hne : out ≠ []) (mh : ℚ) (fx : Bool), (out.getLast hne).hi = none →
      generate_node_latex false out mh fx = .error .typeErr) := by
  obtain ⟨s, s2, hs, hchk, hs2, hfill⟩ := sacn_asc_parts h
  have hwf : ∀ x ∈ s, NodeOKAsc x := fun x hx => check_node_asc_ok (hchk x hx)
  have hlo2 : ∀ x ∈ s2, x.lo ≠ none := s2_members_lo_def hwf hs2
  have hloOut : ∀ n ∈ out, n.lo ≠ none := by
    cases s2 with
    | nil =>
      unfold fill_gaps_walk at hfill
      cases hfill
      intro n hn
      cases hn
    | cons n0 rest =>
      unfold fill_gaps_walk at hfill
      have hmap := fill_walk_asc_lo_map hfill
      intro n hn
      have hmem : n.lo ∈ out.map MNode.lo := List.mem_map_of_mem _ hn
      rw [hmap] at hmem
      obtain ⟨y, hy, hyeq⟩ := List.mem_map.mp hmem
      rw [← hyeq]
      exact hlo2 y hy
  have hhiOut : ∀ (i : Nat) (hi2 : i + 1 < out.length), (out.get ⟨i, by omega⟩).hi ≠ none := by
    cases s2 with
    | nil =>
      unfold fill_gaps_walk at hfill
      cases hfill
      intro i hi2
      simp at hi2
    | cons n0 rest =>
      unfold fill_gaps_walk at hfill
      exact fill_walk_asc_hi_def hfill
  refine ⟨hloOut, hhiOut, ?_⟩
  intro hne mh fx hlast
  cases out with
  | nil => exact absurd rfl hne
  | cons first rest2 =>
    simp only [generate_node_latex]
    rw [if_pos trivial]
    have hflo : ¬ first.lo = none := hloOut first (by simp)
    rw [if_neg hflo]
    have hD : ((first :: rest2).getLastD first).hi = none := by
      rw [List.getLastD_cons, ← List.getLast_eq_getLastD first rest2 hne]
      exact hlast
    rw [show (first :: rest2).getLastD first = ((first :: rest2).getLastD first) from rfl]
    rw [hD, pySubO_none_left]
    rfl

/-- C1 amended, witness: the one-unit-gap input is accepted and its
resolved sequence satisfies the amended adjacency relation. -/
theorem resolver_ascending_contiguity_witness :
    sort_and_check_nodes false
      [mkMemoryMapNode (some 0) (some 16) "regular" "c1a" "" 1,
       mkMemoryMapNode (some 17) (some 33) "regular" "c1b" "" 2] =
      .ok [mkMemoryMapNode (some 0) (some 16) "regular" "c1a" "" 1,
           mkMemoryMapNode (some 17) (some 33) "regular" "c1b" "" 2] ∧
    List.Chain' ContigQ
      [mkMemoryMapNode (some 0) (some 16) "regular" "c1a" "" 1,
       mkMemoryMapNode (some 17) (some 33) "regular" "c1b" "" 2] :=
  ⟨by decide,
   resolver_ascending_contiguity
     [mkMemoryMapNode (some 0) (some 16) "regular" "c1a" "" 1,
      mkMemoryMapNode (some 17) (some 33) "regular" "c1b" "" 2]
     [mkMemoryMapNode (some 0) (some 16) "regular" "c1a" "" 1,
      mkMemoryMapNode (some 17) (some 33) "regular" "c1b" "" 2] (by decide)⟩

/-- C3 amended, witness: the single region [0x0, None] is resolved
without error and generation then fails with the modelled TypeError. -/
theorem resolution_partial_totality_witness :
    sort_and_check_nodes false [mkMemoryMapNode (some 0) none "regular" "c3" "" 1] =
      .ok [mkMemoryMapNode (some 0) none "regular" "c3" "" 1] ∧
    generate_node_latex false [mkMemoryMapNode (some 0) none "regular" "c3" "" 1] 20 false =
      .error .typeErr :=
  ⟨by decide,
   (resolution_partial_totality [mkMemoryMapNode (some 0) none "regular" "c3" "" 1]
      [mkMemoryMapNode (some 0) none "regular" "c3" "" 1] (by decide)).2.2
      (by simp) 20 false (by decide)⟩

/-- C4 (confirmed): Scenario A — ascending regions [0x0,0x10) and
[0x20,0x30) resolve to exactly a, blank, b with the synthetic blank
covering exactly [0x10,0x20); and in general, for each adjacent sorted
pair separated by more than one address unit the gap scan emits a blank
region covering exactly [trailingEdge(prev), leadingEdge(next)), in both
directions (the positivity hypotheses reflect what `check_node` has
already established about checked nodes when the scan runs). -/
theorem blank_region_fills_gap :
    (sort_and_check_nodes false
        [mkMemoryMapNode (some 0) (some 16) "regular" "a" "" 1,
         mkMemoryMapNode (some 32) (some 48) "regular" "b" "" 2] =
      .ok [mkMemoryMapNode (some 0) (some 16) "regular" "a" "" 1,
           BlankRegionNode (some 16) (some 32),
           mkMemoryMapNode (some 32) (some 48) "regular" "b" "" 2]) ∧
    (∀ (s : List MNode) (k : Nat) (hk : k + 1 < s.length) (g w : Int),
      (s.get ⟨k, by omega⟩).hi = some g → (s.get ⟨k + 1, hk⟩).lo = some w →
      0 < g → g + 1 < w →
      BlankRegionNode (some g) (some w) ∈ gapScanAsc s) ∧
    (∀ (s : List MNode) (k : Nat) (hk : k + 1 < s.length) (g w : Int),
      (s.get ⟨k, by omega⟩).lo = some g → (s.get ⟨k + 1, hk⟩).hi = some w →
      0 ≤ w → w + 1 < g →
      BlankRegionNode (some w) (some g) ∈ gapScanDesc s) := by
  refine ⟨by decide, ?_, ?_⟩
  · intro s k hk g w h1 h2 hg hgap
    exact gapScanAsc_complete k hk g w h1 h2 (by omega) hgap
  · intro s k hk g w h1 h2 hw hgap
    exact gapScanDesc_complete k hk g w h1 h2 hw hgap

/-- C4 witness: the gap-scan conjuncts evaluated on concrete pairs. -/
theorem blank_region_fills_gap_witness :
    BlankRegionNode (some 16) (some 32) ∈ gapScanAsc
      [mkMemoryMapNode (some 0) (some 16) "regular" "a" "" 1,
       mkMemoryMapNode (some 32) (some 48) "regular" "b" "" 2] ∧
    BlankRegionNode (some 5) (some 20) ∈ gapScanDesc
      [mkMemoryMapNode (some 20) (some 40) "regular" "d1" "" 1,
       mkMemoryMapNode (some 0) (some 5) "regular" "d2" "" 2] :=
  ⟨blank_region_fills_gap.2.1 _ 0 (by decide) 16 32 rfl rfl (by decide) (by decide),
   blank_region_fills_gap.2.2 _ 0 (by decide) 20 5 rfl rfl (by decide) (by decide)⟩
